import Mathlib

/-!
Verification of the FinSolvers RAG pipeline (`src/rag_policy_qa.py`) against its
natural-language specification.

The Python source is shallowly embedded: strings are `String` (sequences of
characters, matching Python's code-point semantics for the ASCII texts involved),
Python ints are `Nat`/`Int`, Python floats arising here (currency amounts parsed
from decimal literals and their comparisons) are modelled as `ℚ`, which is exact
on every value the code manipulates, and fallible operations return `Except`/`Option`.
The external collaborators that the spec itself declares out of scope (the
sentence-transformer encoder, sklearn's cosine kernel, the OpenAI transport and
the JSON parser) enter as explicit function/outcome parameters.
-/

/-! ## Python string primitives -/

/-- Python's `\s` / `str.strip` whitespace class (ASCII subset, which is all the
pipeline's texts use). -/
def isPySpace (c : Char) : Bool :=
  c = ' ' || c = '\t' || c = '\n' || c = '\r' || c = '\x0b' || c = '\x0c'

/-- Worker for `re.sub(r'\s+', ' ', text)`: collapse every maximal whitespace run
to a single space.  The flag records whether the previous character was part of a
run already replaced. -/
def collapseGo : Bool → List Char → List Char
  | _, [] => []
  | pw, c :: rest =>
    if isPySpace c then
      if pw then collapseGo true rest else ' ' :: collapseGo true rest
    else c :: collapseGo false rest

/-- `re.sub(r'\s+', ' ', text)`. -/
def collapseWs (cs : List Char) : List Char := collapseGo false cs

/-- Python `str.strip()` on a character list. -/
def stripChars (cs : List Char) : List Char :=
  ((cs.dropWhile isPySpace).reverse.dropWhile isPySpace).reverse

/-- Python `str.strip()`. -/
def pyStrip (s : String) : String := ⟨stripChars s.data⟩

/-- Worker for `str.split()` (no separator): the accumulator holds the current
word reversed. -/
def wordsGo (cur : List Char) : List Char → List (List Char)
  | [] => if cur.isEmpty then [] else [cur.reverse]
  | c :: rest =>
    if isPySpace c then
      if cur.isEmpty then wordsGo [] rest else cur.reverse :: wordsGo [] rest
    else wordsGo (c :: cur) rest

/-- Python `str.split()`: whitespace-separated words, no empty entries. -/
def pyWords (s : String) : List String := (wordsGo [] s.data).map fun w => ⟨w⟩

/-- Characters on which `re.split(r'[.!?]+\s+', text)` breaks. -/
def isSentPunct (c : Char) : Bool := c = '.' || c = '!' || c = '?'

/-- Worker for `re.split(r'[.!?]+\s+', text)`.  `sk` is true while the engine is
consuming the greedy `\s+` of a separator just matched; `piece` is the current
piece reversed; `punct` is a pending reversed `[.!?]`-run whose classification
(separator head vs. literal text) depends on the next character. -/
def sentGo : Bool → List Char → List Char → List Char → List (List Char)
  | _, piece, punct, [] => [(punct ++ piece).reverse]
  | sk, piece, punct, c :: rest =>
    if sk then
      if isPySpace c then sentGo true piece punct rest
      else if isSentPunct c then sentGo false [] [c] rest
      else sentGo false [c] [] rest
    else
      if isSentPunct c then sentGo false piece (c :: punct) rest
      else if isPySpace c then
        if punct.isEmpty then sentGo false (c :: piece) [] rest
        else piece.reverse :: sentGo true [] [] rest
      else sentGo false (c :: (punct ++ piece)) [] rest

/-- `re.split(r'[.!?]+\s+', text)`. -/
def splitSentences (s : String) : List String := (sentGo false [] [] s.data).map fun p => ⟨p⟩

/-! ## Data model: `DocumentChunk` -/

/-- `DocumentChunk` from the source.  The Python attribute `section` is a Lean
keyword, so the field is called `sect` here. -/
structure Chunk where
  text : String
  page_number : ℕ
  sect : String
  filename : String
  chunk_id : String
  embedding : Option (List ℚ) := none
deriving DecidableEq

/-! ## `PDFProcessor` (Chunker) -/

/-- `PDFProcessor.chunk_size`. -/
def chunk_size : ℕ := 500

/-- `PDFProcessor.overlap`; the loop uses `overlap // 5 = 10` overlap words. -/
def overlap : ℕ := 50

/-- One iteration of the sentence-accumulation loop of
`PDFProcessor._split_text_into_chunks`: state is `(chunks emitted so far,
current_chunk)`. -/
def chunkStep (st : List String × String) (sentRaw : String) : List String × String :=
  let s := pyStrip sentRaw
  if s.isEmpty then st
  else
    let (chunks, cur) := st
    if cur.length + s.length > chunk_size ∧ ¬cur.isEmpty then
      let ws := pyWords cur
      let ow := if ws.length > overlap / 5 then ws.drop (ws.length - overlap / 5) else ws
      (chunks ++ [cur], String.intercalate " " ow ++ " " ++ s)
    else (chunks, if cur.isEmpty then s else cur ++ " " ++ s)

/-- `PDFProcessor._split_text_into_chunks`. -/
def split_text_into_chunks (text : String) : List String :=
  let t1 := pyStrip ⟨collapseWs text.data⟩
  let sentences := splitSentences t1
  let res := sentences.foldl chunkStep ([], "")
  if (pyStrip res.2).isEmpty then res.1 else res.1 ++ [res.2]

/-- The heading test of `extract_text_from_pdf`:
`len(line) > 5 and line.isupper() and len(line) < 100` on the stripped line.
`str.isupper` is: at least one cased character and no lowercase cased character
(ASCII model). -/
def isHeadingLine (l : String) : Bool :=
  decide (l.length > 5) && (l.data.any fun c => c.isAlpha) &&
    (l.data.all fun c => ¬c.isLower) && decide (l.length < 100)

/-- Python `text.split('\n')`: pieces between newline characters, empties
kept (the accumulator holds the current line reversed). -/
def splitLinesGo (cur : List Char) : List Char → List (List Char)
  | [] => [cur.reverse]
  | c :: rest =>
    if c = '\n' then cur.reverse :: splitLinesGo [] rest else splitLinesGo (c :: cur) rest

/-- Python `text.split('\n')`. -/
def splitLines (s : String) : List String := (splitLinesGo [] s.data).map fun l => ⟨l⟩

/-- The per-page section scan of `extract_text_from_pdf`: fold over the page's
stripped lines starting from `"General"`, replacing the label at every line that
passes the heading test — i.e. the page's LAST heading wins. -/
def sectionOfPage (text : String) : String :=
  ((splitLines text).map pyStrip).foldl
    (fun acc l => if isHeadingLine l then l else acc) "General"

/-- `chunk_id = f"{filename}_p{page_num+1}_c{chunk_idx+1}"` (`pnum` already 1-based). -/
def chunkId (fname : String) (pnum ci : ℕ) : String :=
  fname ++ "_p" ++ Nat.repr pnum ++ "_c" ++ Nat.repr (ci + 1)

/-- The chunk-emission loop of `extract_text_from_pdf`: enumerate the page's raw
chunks (`ci` is the running `chunk_idx`), skip those whose stripped text is
shorter than 50 characters, and build `DocumentChunk`s from the rest. -/
def buildChunks (fname : String) (pnum : ℕ) (sect : String) : ℕ → List String → List Chunk
  | _, [] => []
  | ci, ct :: rest =>
    (if (pyStrip ct).length < 50 then []
     else [{ text := pyStrip ct, page_number := pnum, sect := sect, filename := fname,
             chunk_id := chunkId fname pnum ci, embedding := none }]) ++
    buildChunks fname pnum sect (ci + 1) rest

/-- Processing of one page inside `extract_text_from_pdf` (`pnum` is the 1-based
page number): blank pages are skipped, otherwise the page's own section label is
computed and its chunks emitted. -/
def pageChunks (fname : String) (pnum : ℕ) (text : String) : List Chunk :=
  if (pyStrip text).isEmpty then []
  else buildChunks fname pnum (sectionOfPage text) 0 (split_text_into_chunks text)

/-- The page loop of `extract_text_from_pdf`, starting at page number `pnum`. -/
def extractPages (fname : String) : ℕ → List String → List Chunk
  | _, [] => []
  | pnum, t :: rest => pageChunks fname pnum t ++ extractPages fname (pnum + 1) rest

/-- `PDFProcessor.extract_text_from_pdf`, with PyMuPDF abstracted to the list of
per-page texts it would return (the spec's `(page_number, text)` pairs, in
order). -/
def extract_text_from_pdf (fname : String) (pages : List String) : List Chunk :=
  extractPages fname 1 pages

/-! ## The fallback amount scanner

`LLMReasoningEngine._fallback_reasoning` runs
`re.findall(r'(?:rs\.?\s*|₹\s*|inr\s*)?([\d,]+(?:\.\d{2})?)', chunk.text, re.IGNORECASE)`
over every ranked chunk.  The scanner below reproduces `findall`'s
leftmost/non-overlapping scan with Python's greedy backtracking semantics for
exactly this pattern: at each position the three currency-marker alternatives
are tried in order, then the empty marker; the captured group is the greedy
`[\d,]+` run, extended by `.dd` when exactly two digits follow a dot. -/

/-- The `[\d,]` character class. -/
def isDigitComma (c : Char) : Bool := c.isDigit || c = ','

/-- Greedy `\s*`. -/
def skipWsL (cs : List Char) : List Char := cs.dropWhile isPySpace

/-- Case-insensitive match of a single letter (`a` given lowercase). -/
def lowEq (c a : Char) : Bool := c.toLower = a

/-- Match `[\d,]+(?:\.\d{2})?` at the head of `cs`, returning the captured group
and the remaining input.  `[\d,]+` is greedy; since `.` is outside the class no
backtracking between the two parts can occur. -/
def tryNum (cs : List Char) : Option (List Char × List Char) :=
  let run := cs.takeWhile isDigitComma
  if run.isEmpty then none
  else
    match cs.dropWhile isDigitComma with
    | '.' :: d1 :: d2 :: r2 =>
      if d1.isDigit && d2.isDigit then some (run ++ ['.', d1, d2], r2)
      else some (run, '.' :: d1 :: d2 :: r2)
    | rest => some (run, rest)

/-- Drop the optional dot of `rs\.?`.  When a dot is present the dotless
backtracking branch necessarily fails (the dot is not in `[\d,]`), so consuming
it greedily is faithful. -/
def dropDot : List Char → List Char
  | '.' :: r => r
  | r => r

/-- One match attempt of the full pattern at the current position: alternatives
`rs\.?\s*`, `₹\s*`, `inr\s*` in order, then the empty marker, each followed by
the numeric group. -/
def tryTok (cs : List Char) : Option (List Char × List Char) :=
  (match cs with
   | c1 :: c2 :: rest =>
     if lowEq c1 'r' && lowEq c2 's' then tryNum (skipWsL (dropDot rest)) else none
   | _ => none) <|>
  (match cs with
   | c1 :: rest => if c1 = '₹' then tryNum (skipWsL rest) else none
   | _ => none) <|>
  (match cs with
   | c1 :: c2 :: c3 :: rest =>
     if lowEq c1 'i' && lowEq c2 'n' && lowEq c3 'r' then tryNum (skipWsL rest) else none
   | _ => none) <|>
  tryNum cs

/-- The `findall` scan: try a match at the current position, otherwise advance
one character.  Fuel makes the recursion structural; every successful match
consumes at least one character, so `cs.length` fuel never runs out. -/
def scanGo : ℕ → List Char → List (List Char)
  | 0, _ => []
  | _ + 1, [] => []
  | fuel + 1, c :: rest =>
    match tryTok (c :: rest) with
    | some (g, r2) => g :: scanGo fuel r2
    | none => scanGo fuel rest

/-- All captured groups of the pattern over `cs`, in match order. -/
def scanAll (cs : List Char) : List (List Char) := scanGo cs.length cs

/-- Numeric value of a digit string. -/
def digitsNat (ds : List Char) : ℕ :=
  ds.foldl (fun n c => n * 10 + (c.toNat - '0'.toNat)) 0

/-- `float(match.replace(',', ''))` on a captured group, `none` on `ValueError`
(all-comma groups).  Groups have shape `[\d,]+` optionally extended by `.dd`,
so after comma removal they are `digits`, `digits.dd` or `.dd`; the decimal
value is built with `mkRat`, which represents it exactly. -/
def parseAmount (g : List Char) : Option ℚ :=
  let s := g.filter fun c => c ≠ ','
  let ip := s.takeWhile fun c => c ≠ '.'
  match s.dropWhile fun c => c ≠ '.' with
  | [] => if ip.isEmpty then none else some (mkRat (digitsNat ip) 1)
  | _ :: fr =>
    if ip.isEmpty ∧ fr.isEmpty then none
    else some (mkRat (digitsNat ip * 10 ^ fr.length + digitsNat fr) (10 ^ fr.length))

/-- The in-range currency values found in one chunk's text, in match order:
parse every captured group and keep the values in `[100, 10000000]`. -/
def inRangeAmounts (s : String) : List ℚ :=
  ((scanAll s.data).filterMap parseAmount).filter fun a =>
    decide (100 ≤ a) && decide (a ≤ 10000000)

/-! ## The fallback decision strategy -/

/-- `rejection_keywords` from `_fallback_reasoning`. -/
def rejection_keywords : List String :=
  ["excluded", "not covered", "rejected", "denied", "invalid"]

/-- Python `str.lower()` (ASCII model; the keywords are ASCII). -/
def lowerS (s : String) : String := ⟨s.data.map Char.toLower⟩

/-- Whether `sub` is a prefix of `s`. -/
def leadsWith : List Char → List Char → Bool
  | [], _ => true
  | _ :: _, [] => false
  | a :: as, b :: bs => a = b && leadsWith as bs

/-- Python's substring test `sub in s`. -/
def containsSub (sub : List Char) : List Char → Bool
  | [] => sub.isEmpty
  | c :: rest => leadsWith sub (c :: rest) || containsSub sub rest

/-- `any(keyword in chunk.text.lower() for keyword in rejection_keywords)`. -/
def containsRejection (t : String) : Bool :=
  rejection_keywords.any fun kw => containsSub kw.data (lowerS t).data

/-- Python `max(list)` guarded by `if amounts else None`; only the value matters
(Python returns the first maximal element, an indistinguishable choice on
numbers). -/
def pyMax : List ℚ → Option ℚ
  | [] => none
  | a :: rest => some (rest.foldl (fun x y => if x ≤ y then y else x) a)

/-- `chunk.text[:200] + "..." if len(chunk.text) > 200 else chunk.text`. -/
def pyTrunc (t : String) : String :=
  if t.length > 200 then (⟨t.data.take 200⟩ : String) ++ "..." else t

/-- A `clause_mapping` entry built by the fallback strategy. -/
structure Citation where
  clause_text : String
  filename : String
  page : ℕ
  sect : String
deriving DecidableEq

/-- The citation the fallback builds from one ranked hit. -/
def mkCitation (p : Chunk × ℚ) : Citation :=
  { clause_text := pyTrunc p.1.text, filename := p.1.filename,
    page := p.1.page_number, sect := p.1.sect }

/-- `QueryResult` as the fallback strategy and the orchestrator build it (all
fields well-typed). -/
structure QueryResultT where
  decision : String
  amount : Option ℚ
  justification : String
  clause_mapping : List Citation
deriving DecidableEq

/-- Thousands-grouping worker: input is the reversed digit string, `k` counts
digits already emitted; a comma is inserted after every third digit when more
digits follow. -/
def groupRev : List Char → ℕ → List Char
  | [], _ => []
  | c :: rest, k =>
    let tail := groupRev rest (k + 1)
    c :: (if (k + 1) % 3 = 0 ∧ rest ≠ [] then ',' :: tail else tail)

/-- Python `"{:,.2f}".format(a)` for the nonnegative amounts with at most two
decimal places that the fallback can produce (on which the float formatting is
exact). -/
def fmtComma2 (a : ℚ) : String :=
  let c : ℤ := (a * 100).floor
  let fp := (c % 100).toNat
  (⟨(groupRev (Nat.repr (c / 100).toNat).data.reverse 0).reverse⟩ : String) ++ "." ++
    (if fp < 10 then "0" else "") ++ Nat.repr fp

/-- The justification template of `_fallback_reasoning`; Python's
`if decision == "approved" and amount` treats `None` and `0.0` as false. -/
def fallbackJustification (nChunks : ℕ) (decision : String) (amount : Option ℚ) : String :=
  let base := "Decision based on analysis of " ++ Nat.repr nChunks ++
    " relevant clauses from the policy document. "
  if decision == "approved" && (match amount with | some a => decide (a ≠ 0) | none => false) then
    base ++ "Claim approved for amount ₹" ++ fmtComma2 (amount.getD 0) ++ "."
  else if decision == "rejected" then
    base ++ "Claim rejected based on policy exclusions or limitations."
  else base ++ "Policy terms analyzed but no specific amount determined."

/-- `LLMReasoningEngine._fallback_reasoning` (its `query_lower` local is dead
code and omitted). -/
def fallback_reasoning (_q : String) (relevant_chunks : List (Chunk × ℚ)) : QueryResultT :=
  let amounts := relevant_chunks.flatMap fun p => inRangeAmounts p.1.text
  let decision := if relevant_chunks.any fun p => containsRejection p.1.text
    then "rejected" else "approved"
  let amount := pyMax amounts
  { decision := decision, amount := amount,
    justification := fallbackJustification relevant_chunks.length decision amount,
    clause_mapping := (relevant_chunks.take 3).map mkCitation }

/-! ## JSON values and the primary (LLM) strategy

`generate_response` feeds the provider's text to `json.loads` and then calls
`QueryResult(**result_dict)`.  The provider and the JSON parser are black-box
collaborators, so a provider interaction is modelled by its outcome: a transport
error (any exception from the `openai` call), a response that `json.loads`
rejects (extra text, truncation, ...), or the parsed JSON value. -/

/-- Parsed JSON values (`json.loads` output); numbers as exact rationals. -/
inductive Json where
  | null
  | bool (b : Bool)
  | num (q : ℚ)
  | str (s : String)
  | arr (elems : List Json)
  | obj (fields : List (String × Json))

/-- Outcome of one call to the reasoning provider, as observed by
`generate_response`. -/
inductive ProviderResult where
  | transportErr
  | malformed
  | json (j : Json)

/-- The result `generate_response` returns.  Python's dataclass does not check
field types, so a result adopted from the provider can hold arbitrary JSON in
every field; the four fields are therefore JSON-valued. -/
structure QueryResultD where
  decision : Json
  amount : Json
  justification : Json
  clause_mapping : Json

/-- JSON encoding of a well-typed citation (the dict literal the fallback
builds). -/
def citationJson (c : Citation) : Json :=
  .obj [("clause_text", .str c.clause_text),
        ("source", .obj [("filename", .str c.filename), ("page", .num c.page),
                         ("section", .str c.sect)])]

/-- View of a well-typed `QueryResult` as a dynamically-typed one. -/
def toJsonD (r : QueryResultT) : QueryResultD :=
  { decision := .str r.decision,
    amount := match r.amount with | none => .null | some a => .num a,
    justification := .str r.justification,
    clause_mapping := .arr (r.clause_mapping.map citationJson) }

/-- The dataclass's keyword parameters. -/
def requiredKeys : List String := ["decision", "amount", "justification", "clause_mapping"]

/-- `QueryResult(**result_dict)`: succeeds exactly when the parsed value is a
JSON object whose key set is exactly the four dataclass fields (a missing or
extra key raises `TypeError`, as does a non-object), and copies the values
without any type check. -/
def kwargsMk (j : Json) : Option QueryResultD :=
  match j with
  | .obj kvs =>
    if (kvs.map Prod.fst).Perm requiredKeys then
      some { decision := ((kvs.lookup "decision").getD .null),
             amount := ((kvs.lookup "amount").getD .null),
             justification := ((kvs.lookup "justification").getD .null),
             clause_mapping := ((kvs.lookup "clause_mapping").getD .null) }
    else none
  | _ => none

/-- `LLMReasoningEngine.generate_response`.  With no API key the fallback runs
directly; a transport error or an unparseable response is caught (outer
`except Exception` / inner `except JSONDecodeError`) and falls back; a parsed
response is passed to the dataclass constructor, whose `TypeError` is caught by
the outer handler and also falls back. -/
def generate_response (apiKey : Option String) (pr : ProviderResult) (query : String)
    (relevant_chunks : List (Chunk × ℚ)) : QueryResultD :=
  match apiKey with
  | none => toJsonD (fallback_reasoning query relevant_chunks)
  | some _ =>
    match pr with
    | .transportErr => toJsonD (fallback_reasoning query relevant_chunks)
    | .malformed => toJsonD (fallback_reasoning query relevant_chunks)
    | .json j =>
      match kwargsMk j with
      | some r => r
      | none => toJsonD (fallback_reasoning query relevant_chunks)

/-! ## `EmbeddingEngine`

Chunk objects live in a store indexed by object identity (`ℕ`), so that the
in-place mutation `chunk.embedding = embeddings[i]` and the aliasing of the
caller's chunk list are observable.  The sentence-transformer model and
sklearn's cosine kernel are the spec's black-box collaborators and enter as
function parameters (`enc`, `cos`); an encoder failure is the `none` outcome. -/

/-- The chunk-object heap. -/
def Store : Type := ℕ → Chunk

/-- Mutable state of an `EmbeddingEngine`: `self.chunks` (a list of chunk-object
references) and `self.embeddings` (the matrix, one row per chunk). -/
structure EngineSt where
  chunks : List ℕ
  embeddings : Option (List (List ℚ))

/-- Python exceptions that the embedded fragment can raise. -/
inductive PyErr where
  | valueError
  | indexError
deriving DecidableEq

/-- Python `lst[i]` (raises `IndexError` out of range; negative indices do not
occur in the embedded code paths). -/
def pyGet {α : Type} (l : List α) (i : ℕ) : Except PyErr α :=
  match l.get? i with
  | some a => .ok a
  | none => .error .indexError

/-- Python `lst[:k]` for an arbitrary (possibly negative) `k`. -/
def pySlice {α : Type} (l : List α) (k : ℤ) : List α :=
  if 0 ≤ k then l.take k.toNat else l.take ((l.length : ℤ) + k).toNat

/-- The in-place field write `chunk.embedding = e` on the heap. -/
def writeEmb (st : Store) (cid : ℕ) (e : List ℚ) : Store :=
  fun x => if x = cid then { st cid with embedding := some e } else st x

/-- The loop `for i, chunk in enumerate(self.chunks): chunk.embedding =
embeddings[i]`, performed positionally; if the embedding matrix is shorter than
the chunk list the loop raises `IndexError` mid-way, keeping the writes already
done. -/
def writeLoop : Store → List ℕ → List (List ℚ) → Except Store Store
  | st, [], _ => .ok st
  | st, _ :: _, [] => .error st
  | st, cid :: rest, e :: erest => writeLoop (writeEmb st cid e) rest erest

/-- `EmbeddingEngine.create_embeddings`.  `self.chunks` is reassigned to the
caller's list BEFORE the batch encoder call; only afterwards are the matrix
stored and the vectors written into the chunk objects.  An error outcome carries
the state at the raise point (the exception propagates to the caller). -/
def create_embeddings (enc : List String → Option (List (List ℚ))) (st : Store)
    (σ : EngineSt) (chunks : List ℕ) : Except (Store × EngineSt) (Store × EngineSt) :=
  match enc (chunks.map fun cid => (st cid).text) with
  | none => .error (st, { σ with chunks := chunks })
  | some embs =>
    match writeLoop st chunks embs with
    | .error st2 => .error (st2, { chunks := chunks, embeddings := some embs })
    | .ok st2 => .ok (st2, { chunks := chunks, embeddings := some embs })

/-- Ascending comparison used to model `np.argsort` on the score row: sort the
(score, index) pairs lexicographically, which is exactly a stable ascending
argsort (numpy's sort is stable on these array sizes — its small-array kernel
is an insertion sort). -/
def lexLe (p q : ℚ × ℕ) : Prop := p.1 < q.1 ∨ (p.1 = q.1 ∧ p.2 ≤ q.2)

instance : DecidableRel lexLe := fun p q =>
  inferInstanceAs (Decidable (p.1 < q.1 ∨ (p.1 = q.1 ∧ p.2 ≤ q.2)))

instance : IsTotal (ℚ × ℕ) lexLe where
  total p q := by
    rcases lt_trichotomy p.1 q.1 with h | h | h
    · exact Or.inl (Or.inl h)
    · rcases Nat.le_total p.2 q.2 with h2 | h2
      · exact Or.inl (Or.inr ⟨h, h2⟩)
      · exact Or.inr (Or.inr ⟨h.symm, h2⟩)
    · exact Or.inr (Or.inl h)

instance : IsTrans (ℚ × ℕ) lexLe where
  trans p q r hpq hqr := by
    rcases hpq with h1 | ⟨e1, l1⟩
    · rcases hqr with h2 | ⟨e2, _⟩
      · exact Or.inl (h1.trans h2)
      · exact Or.inl (e2 ▸ h1)
    · rcases hqr with h2 | ⟨e2, l2⟩
      · exact Or.inl (e1 ▸ h2)
      · exact Or.inr ⟨e1.trans e2, l1.trans l2⟩

/-- The (score, index) pairs of a score row. -/
def pairsOf (sims : List ℚ) : List (ℚ × ℕ) :=
  (List.range sims.length).map fun i => (sims.getD i 0, i)

/-- `np.argsort(sims)` (default `kind='quicksort'`): a permutation of the row
indices listing the scores in ascending order.  This model fixes the tie order
to ascending index, which is `np.argsort` exactly on rows of at most 16
elements: numpy's introsort hands such arrays to its insertion-sort kernel,
which is stable.  On longer rows numpy's quicksort may permute equal scores, so
only tie-order-invariant consequences of this model (which scores are selected
and in what score order) transfer to the program there; the theorems below
assert the exact tie order only under the 16-element bound. -/
def argsortAsc (sims : List ℚ) : List ℕ :=
  (List.insertionSort lexLe (pairsOf sims)).map Prod.snd

/-- `EmbeddingEngine.semantic_search`: guard, embed the query, cosine row,
`np.argsort(...)[::-1][:top_k]`, then look each index up in `self.chunks`. -/
def semantic_search (st : Store) (enc1 : String → List ℚ) (cos : List ℚ → List ℚ → ℚ)
    (σ : EngineSt) (query : String) (top_k : ℤ) : Except PyErr (List (Chunk × ℚ)) :=
  match σ.embeddings with
  | none => .error .valueError
  | some M =>
    if σ.chunks.length = 0 then .error .valueError
    else
      let sims := M.map (cos (enc1 query))
      let idxs := pySlice (argsortAsc sims).reverse top_k
      idxs.mapM fun i => (pyGet σ.chunks i).map fun cid => (st cid, sims.getD i 0)

/-! ## `RAGPolicyQA` (orchestrator) -/

/-- Orchestrator state: the engine plus `self.is_initialized`. -/
structure Orch where
  engine : EngineSt
  inited : Bool

/-- `RAGPolicyQA.process_document`.  PDF extraction is abstracted to its
outcome (`none` = the extraction raised).  A raise at any point propagates with
the state reached so far; `is_initialized` is set only after full success. -/
def process_document (extracted : Option (List ℕ))
    (enc : List String → Option (List (List ℚ))) (st : Store) (σ : Orch) :
    Except (Store × Orch) (Store × Orch) :=
  match extracted with
  | none => .error (st, σ)
  | some cids =>
    if cids.isEmpty then .error (st, σ)
    else
      match create_embeddings enc st σ.engine cids with
      | .error (st2, e2) => .error (st2, { σ with engine := e2 })
      | .ok (st2, e2) => .ok (st2, { engine := e2, inited := true })

/-- The fixed result `RAGPolicyQA.query` returns when retrieval is empty. -/
def emptyRejectResult : QueryResultT :=
  { decision := "rejected", amount := none,
    justification := "No relevant policy clauses found for the query.",
    clause_mapping := [] }

/-- `RAGPolicyQA.query`: the `NotReady` guard, retrieval, the empty-retrieval
terminal case, then decision synthesis.  Search exceptions propagate to the
caller. -/
def ragQuery (enc1 : String → List ℚ) (cos : List ℚ → List ℚ → ℚ)
    (apiKey : Option String) (pr : ProviderResult) (st : Store) (σ : Orch)
    (user_query : String) (top_k : ℤ) : Except PyErr QueryResultD :=
  if σ.inited then
    match semantic_search st enc1 cos σ.engine user_query top_k with
    | .error e => .error e
    | .ok hits =>
      if hits.isEmpty then .ok (toJsonD emptyRejectResult)
      else .ok (generate_response apiKey pr user_query hits)
  else .error .valueError

/-! ## Claim-side predicates and derived notions -/

/-- The values the spec's fallback amount rule ranges over: every in-range
currency value found across all ranked chunks' texts, in rank order. -/
def amountCandidates (relevant_chunks : List (Chunk × ℚ)) : List ℚ :=
  relevant_chunks.flatMap fun p => inRangeAmounts p.1.text

/-- Modelled from the spec: the citation-integrity invariant — a `clause_text`
is admissible for a chunk text when it is an exact substring of it, or that text
truncated to 200 characters followed by the ellipsis marker. -/
def specCitationOk (ct t : String) : Bool :=
  containsSub ct.data t.data ||
    (decide (200 < t.length) && (ct == (⟨t.data.take 200⟩ : String) ++ "..."))

/-- Ascending strict order of positions by (score, position): position `i`
strictly precedes `j` when its score is smaller, or the scores tie and `i < j`. -/
def ascRel (sims : List ℚ) (i j : ℕ) : Prop :=
  sims.getD i 0 < sims.getD j 0 ∨ (sims.getD i 0 = sims.getD j 0 ∧ i < j)

/-! ## Concrete instances used by witnesses and counterexamples -/

/-- A sample chunk (insertion position 0 in the two-chunk corpora below). -/
def chunkA : Chunk :=
  { text := "first chunk text about knee surgery coverage limits", page_number := 1,
    sect := "General", filename := "p.pdf", chunk_id := "p.pdf_p1_c1" }

/-- A sample chunk (insertion position 1). -/
def chunkB : Chunk :=
  { text := "second chunk text about waiting periods for claims", page_number := 1,
    sect := "General", filename := "p.pdf", chunk_id := "p.pdf_p1_c2" }

/-- A sample chunk from a replacement document. -/
def chunkNew : Chunk :=
  { text := "replacement chunk text from the freshly loaded document", page_number := 1,
    sect := "General", filename := "n.pdf", chunk_id := "n.pdf_p1_c1" }

/-- Chunk with the spec's first fallback-amount example text. -/
def chunkAmt1 : Chunk :=
  { text := "claim amount is Rs. 15,000", page_number := 1, sect := "General",
    filename := "p.pdf", chunk_id := "p.pdf_p1_c3" }

/-- Chunk with the spec's second fallback-amount example text. -/
def chunkAmt2 : Chunk :=
  { text := "penalty is Rs. 500", page_number := 2, sect := "General",
    filename := "p.pdf", chunk_id := "p.pdf_p2_c1" }

/-- A concrete heap: object 0 is `chunkA`, object 1 is `chunkB`, everything else
`chunkNew`. -/
def storeABN : Store := fun n => match n with | 0 => chunkA | 1 => chunkB | _ => chunkNew

/-- Concrete instantiation of the black-box `cos` parameter: on the orthonormal
embedding vectors used in the concrete corpora below ([1,0] and [0,1]), cosine
similarity is exactly 1 on equal vectors and 0 on distinct ones. -/
def cosIndicator (u v : List ℚ) : ℚ := if u = v then 1 else 0

/-- A concrete query encoder: every query embeds to the unit vector `[1, 0]`. -/
def encConst (_ : String) : List ℚ := [1, 0]

/-- A batch encoder whose call raises (the `model.encode` failure outcome). -/
def encFail (_ : List String) : Option (List (List ℚ)) := none

/-- A batch encoder returning one fixed two-dimensional unit vector per text. -/
def encBatch (ts : List String) : Option (List (List ℚ)) := some (ts.map fun _ => [1, 0])

/-- Engine state with two chunks whose scores against `encConst`/`cosIndicator` tie. -/
def engTies : EngineSt := { chunks := [0, 1], embeddings := some [[1, 0], [1, 0]] }

/-- A Ready orchestrator over the two-chunk corpus `[chunkA, chunkB]`. -/
def orchReady : Orch :=
  { engine := { chunks := [0, 1], embeddings := some [[1, 0], [0, 1]] }, inited := true }

/-- The corrupted state `process_document` leaves behind when chunking succeeded
with the single new chunk `2` but the embedding call raised: the chunk list was
already replaced, the old two-row matrix kept. -/
def orchBroken : Orch :=
  { engine := { chunks := [2], embeddings := some [[1, 0], [0, 1]] }, inited := true }

/-- A provider response that parses to a JSON object with exactly the four
expected keys but a number (wrong type) in `decision`. -/
def jsonWrongTypes : Json :=
  .obj [("decision", .num 42), ("amount", .null), ("justification", .str "x"),
        ("clause_mapping", .arr [])]

/-- A provider response with the exact expected shape whose single citation
quotes text that appears in no retrieved chunk. -/
def jsonFabricated : Json :=
  .obj [("decision", .str "approved"), ("amount", .null), ("justification", .str "ok"),
        ("clause_mapping",
         .arr [.obj [("clause_text", .str "THIS EXACT SENTENCE APPEARS IN NO CHUNK"),
                     ("source", .obj [("filename", .str "p.pdf"), ("page", .num 1),
                                      ("section", .str "General")])]])]

/-- First page of the section-tagging counterexample: a heading line followed by
one long sentence. -/
def pageOne : String :=
  "SECTION ALPHA HEADING\nThis is a sufficiently long sentence about insurance policies to form one chunk."

/-- Second page: one long sentence and no heading line of its own. -/
def pageTwo : String :=
  "another long lowercase sentence about claims that also easily exceeds fifty characters."

/-- A one-chunk engine state (used to drive `search` to an empty hit list with
`top_k = 0`). -/
def engSingle : EngineSt := { chunks := [0], embeddings := some [[1, 0]] }

/-- A Ready orchestrator over the one-chunk corpus. -/
def orchSingle : Orch := { engine := engSingle, inited := true }

/-- A three-chunk engine state whose first and third chunks tie against
`encConst`/`cosIndicator`. -/
def engThree : EngineSt := { chunks := [0, 1, 2], embeddings := some [[1, 0], [0, 1], [1, 0]] }

/-! ## Helper lemmas -/

theorem foldl_max_le (l : List ℚ) (a : ℚ) : a ≤ l.foldl max a ∧ ∀ x ∈ l, x ≤ l.foldl max a := by
  induction l generalizing a with
  | nil => exact ⟨le_refl a, by simp⟩
  | cons b t ih =>
    rcases ih (max a b) with ⟨h1, h2⟩
    refine ⟨le_trans (le_max_left a b) h1, ?_⟩
    intro x hx
    rcases List.mem_cons.mp hx with rfl | hx
    · exact le_trans (le_max_right a x) h1
    · exact h2 x hx

theorem foldl_max_mem (l : List ℚ) (a : ℚ) : l.foldl max a = a ∨ l.foldl max a ∈ l := by
  induction l generalizing a with
  | nil => exact Or.inl rfl
  | cons b t ih =>
    have hstep : (b :: t).foldl max a = t.foldl max (max a b) := rfl
    rcases ih (max a b) with h | h
    · rcases le_total a b with hab | hab
      · right
        rw [hstep, h, max_eq_right hab]
        exact List.mem_cons_self b t
      · left
        rw [hstep, h, max_eq_left hab]
    · right
      exact List.mem_cons_of_mem b (hstep ▸ h)

theorem ite_le_eq_max : (fun x y : ℚ => if x ≤ y then y else x) = max := by
  funext x y
  rw [max_def]

theorem pyMax_none_iff (l : List ℚ) : pyMax l = none ↔ l = [] := by
  cases l <;> simp [pyMax]

theorem pyMax_some_iff (l : List ℚ) (m : ℚ) :
    pyMax l = some m ↔ m ∈ l ∧ ∀ x ∈ l, x ≤ m := by
  cases l with
  | nil => simp [pyMax]
  | cons a t =>
    simp only [pyMax, ite_le_eq_max, Option.some.injEq]
    rcases foldl_max_le t a with ⟨h1, h2⟩
    constructor
    · rintro rfl
      refine ⟨?_, ?_⟩
      · rcases foldl_max_mem t a with h | h
        · rw [h]
          exact List.mem_cons_self a t
        · exact List.mem_cons_of_mem a h
      · intro x hx
        rcases List.mem_cons.mp hx with rfl | hx
        · exact h1
        · exact h2 x hx
    · rintro ⟨hm, hub⟩
      have hle : t.foldl max a ≤ m := by
        rcases foldl_max_mem t a with h | h
        · rw [h]
          exact hub a (List.mem_cons_self a t)
        · exact hub _ (List.mem_cons_of_mem a h)
      have hge : m ≤ t.foldl max a := by
        rcases List.mem_cons.mp hm with rfl | hm
        · exact h1
        · exact h2 m hm
      exact le_antisymm hle hge

theorem buildChunks_mem {fname : String} {pnum : ℕ} {sect : String} :
    ∀ {ci : ℕ} {l : List String} {c : Chunk}, c ∈ buildChunks fname pnum sect ci l →
      c.sect = sect ∧ c.page_number = pnum := by
  intro ci l
  induction l generalizing ci with
  | nil => intro c h; simp [buildChunks] at h
  | cons ct rest ih =>
    intro c h
    simp only [buildChunks, List.mem_append] at h
    rcases h with h | h
    · by_cases hlen : (pyStrip ct).length < 50
      · simp [hlen] at h
      · simp only [hlen, if_false, List.mem_singleton] at h
        subst h
        exact ⟨rfl, rfl⟩
    · exact ih h

theorem pageChunks_mem {fname : String} {pnum : ℕ} {t : String} {c : Chunk}
    (h : c ∈ pageChunks fname pnum t) : c.sect = sectionOfPage t ∧ c.page_number = pnum := by
  unfold pageChunks at h
  by_cases he : (pyStrip t).isEmpty
  · simp [he] at h
  · simp only [he, if_false] at h
    exact buildChunks_mem h

theorem extractPages_mem {fname : String} :
    ∀ {ps : List String} {p : ℕ} {c : Chunk}, c ∈ extractPages fname p ps →
      ∃ i, i < ps.length ∧ c.page_number = p + i ∧ c.sect = sectionOfPage (ps.getD i "") := by
  intro ps
  induction ps with
  | nil => intro p c h; simp [extractPages] at h
  | cons t rest ih =>
    intro p c h
    simp only [extractPages, List.mem_append] at h
    rcases h with h | h
    · rcases pageChunks_mem h with ⟨hs, hp⟩
      exact ⟨0, by simp, by simpa using hp, by simpa using hs⟩
    · rcases ih h with ⟨i, hi, hp, hs⟩
      exact ⟨i + 1, by simpa using hi, by omega, by simpa using hs⟩

theorem writeLoop_spec :
    ∀ (ids : List ℕ) (embs : List (List ℚ)) (st : Store),
      embs.length = ids.length → ids.Nodup →
      ∃ st2, writeLoop st ids embs = .ok st2 ∧
        (∀ i, i < ids.length →
          st2 (ids.getD i 0) = { st (ids.getD i 0) with embedding := some (embs.getD i []) }) ∧
        (∀ x, x ∉ ids → st2 x = st x) := by
  intro ids
  induction ids with
  | nil =>
    intro embs st _ _
    exact ⟨st, rfl, by intro i hi; simp at hi, by intro x _; rfl⟩
  | cons cid rest ih =>
    intro embs st hlen hnd
    cases embs with
    | nil => simp at hlen
    | cons e erest =>
      have hlen' : erest.length = rest.length := by simpa using hlen
      have hnd' : rest.Nodup := hnd.of_cons
      have hcid : cid ∉ rest := (List.nodup_cons.mp hnd).1
      rcases ih erest (writeEmb st cid e) hlen' hnd' with ⟨st2, hrun, hwr, hfr⟩
      refine ⟨st2, hrun, ?_, ?_⟩
      · intro i hi
        cases i with
        | zero =>
          have h0 : writeEmb st cid e cid = { st cid with embedding := some e } := by
            simp [writeEmb]
          simp only [List.getD_cons_zero]
          rw [hfr cid hcid, h0]
        | succ i' =>
          have hi' : i' < rest.length := by simpa using hi
          have hmem : rest.getD i' 0 ∈ rest := by
            rw [List.getD_eq_getElem rest 0 hi']
            exact List.getElem_mem hi'
          have hne : rest.getD i' 0 ≠ cid := fun h => hcid (h ▸ hmem)
          have hthis := hwr i' hi'
          have hskip : writeEmb st cid e (rest.getD i' 0) = st (rest.getD i' 0) := by
            unfold writeEmb
            rw [if_neg hne]
          rw [hskip] at hthis
          simpa [List.getD_cons_succ] using hthis
      · intro x hx
        have hx1 : x ≠ cid := fun h => hx (h ▸ List.mem_cons_self cid rest)
        have hx2 : x ∉ rest := fun h => hx (List.mem_cons_of_mem cid h)
        rw [hfr x hx2]
        simp [writeEmb, hx1]

theorem mapM_pyGet_ok {α β : Type} (l : List α) (d : α) (g : ℕ → α → β) :
    ∀ (idxs : List ℕ), (∀ i ∈ idxs, i < l.length) →
      (idxs.mapM fun i => (pyGet l i).map (g i)) =
        Except.ok (idxs.map fun i => g i (l.getD i d)) := by
  intro idxs
  induction idxs with
  | nil => intro _; rfl
  | cons i rest ih =>
    intro h
    have hi : i < l.length := h i (List.mem_cons_self i rest)
    have hget : pyGet l i = .ok (l.getD i d) := by
      unfold pyGet
      rw [List.get?_eq_getElem?, List.getElem?_eq_getElem hi, List.getD_eq_getElem l d hi]
    have hrest := ih fun j hj => h j (List.mem_cons_of_mem i hj)
    simp only [List.mapM_cons]
    simp only [Except.map] at hrest ⊢
    rw [hget, hrest]
    rfl

/-! ## Lemmas about the argsort model -/

theorem pairsOf_map_snd (sims : List ℚ) :
    (pairsOf sims).map Prod.snd = List.range sims.length := by
  unfold pairsOf
  rw [List.map_map]
  exact List.map_id'' (fun _ => rfl) _

theorem pairsOf_nodup (sims : List ℚ) : (pairsOf sims).Nodup := by
  apply List.Nodup.of_map Prod.snd
  rw [pairsOf_map_snd]
  exact List.nodup_range _

theorem mem_pairsOf {sims : List ℚ} {p : ℚ × ℕ} (h : p ∈ pairsOf sims) :
    p.2 < sims.length ∧ p.1 = sims.getD p.2 0 := by
  unfold pairsOf at h
  rcases List.mem_map.mp h with ⟨i, hi, rfl⟩
  exact ⟨List.mem_range.mp hi, rfl⟩

theorem argsort_perm (sims : List ℚ) :
    (argsortAsc sims).Perm (List.range sims.length) := by
  unfold argsortAsc
  have h := (List.perm_insertionSort lexLe (pairsOf sims)).map Prod.snd
  rwa [pairsOf_map_snd] at h

theorem argsort_length (sims : List ℚ) : (argsortAsc sims).length = sims.length :=
  (argsort_perm sims).length_eq.trans (List.length_range _)

theorem argsort_mem_lt {sims : List ℚ} {i : ℕ} (h : i ∈ argsortAsc sims) : i < sims.length :=
  List.mem_range.mp ((argsort_perm sims).mem_iff.mp h)

theorem argsort_nodup (sims : List ℚ) : (argsortAsc sims).Nodup :=
  (argsort_perm sims).nodup_iff.mpr (List.nodup_range _)

theorem argsort_pairwise (sims : List ℚ) : (argsortAsc sims).Pairwise (ascRel sims) := by
  unfold argsortAsc
  rw [List.pairwise_map]
  have hsorted : (List.insertionSort lexLe (pairsOf sims)).Pairwise lexLe :=
    List.sorted_insertionSort lexLe (pairsOf sims)
  have hnd : (List.insertionSort lexLe (pairsOf sims)).Nodup :=
    (List.perm_insertionSort lexLe (pairsOf sims)).nodup_iff.mpr (pairsOf_nodup sims)
  refine List.Pairwise.imp_of_mem ?_ (hsorted.and hnd)
  intro a b ha hb hab
  rcases hab with ⟨hle, hne⟩
  have hA := mem_pairsOf ((List.perm_insertionSort lexLe (pairsOf sims)).mem_iff.mp ha)
  have hB := mem_pairsOf ((List.perm_insertionSort lexLe (pairsOf sims)).mem_iff.mp hb)
  rcases hle with hlt | ⟨heq, hle2⟩
  · exact Or.inl (hA.2 ▸ hB.2 ▸ hlt)
  · have hne2 : a.2 ≠ b.2 := by
      intro h2
      apply hne
      cases a
      cases b
      simp_all
    exact Or.inr ⟨hA.2 ▸ hB.2 ▸ heq, lt_of_le_of_ne hle2 hne2⟩

theorem argsort_reverse_pairwise (sims : List ℚ) :
    (argsortAsc sims).reverse.Pairwise (fun i j => ascRel sims j i) :=
  List.pairwise_reverse.mpr (argsort_pairwise sims)

theorem argsort_take_topk (sims : List ℚ) (m : ℕ) :
    ((argsortAsc sims).reverse.take m).Nodup ∧
    (∀ i ∈ (argsortAsc sims).reverse.take m, i < sims.length) ∧
    ((argsortAsc sims).reverse.take m).Pairwise (fun i j => ascRel sims j i) ∧
    ∀ i ∈ (argsortAsc sims).reverse.take m, ∀ j, j < sims.length →
      j ∉ (argsortAsc sims).reverse.take m → sims.getD j 0 ≤ sims.getD i 0 := by
  have hAnodup : (argsortAsc sims).reverse.Nodup :=
    List.nodup_reverse.mpr (argsort_nodup _)
  have hsub : List.Sublist ((argsortAsc sims).reverse.take m)
      (argsortAsc sims).reverse := List.take_sublist m _
  have hAmem : ∀ i ∈ (argsortAsc sims).reverse, i < sims.length := fun i hi =>
    argsort_mem_lt (List.mem_reverse.mp hi)
  have hpwA : (argsortAsc sims).reverse.Pairwise (fun i j => ascRel sims j i) :=
    argsort_reverse_pairwise _
  refine ⟨hAnodup.sublist hsub, fun i hi => hAmem i (hsub.subset hi),
    List.Pairwise.sublist hsub hpwA, ?_⟩
  intro i hi j hj hjsel
  have hjA : j ∈ (argsortAsc sims).reverse := by
    rw [List.mem_reverse]
    exact (argsort_perm _).mem_iff.mpr (List.mem_range.mpr hj)
  have hjdrop : j ∈ (argsortAsc sims).reverse.drop m := by
    have hsplit := List.take_append_drop m (argsortAsc sims).reverse
    rcases List.mem_append.mp (hsplit.symm ▸ hjA) with h | h
    · exact absurd h hjsel
    · exact h
  rcases hpwA.rel_of_mem_take_of_mem_drop hi hjdrop with h | ⟨he, _⟩
  · exact le_of_lt h
  · exact le_of_eq he

theorem leadsWith_refl : ∀ l : List Char, leadsWith l l = true := by
  intro l
  induction l with
  | nil => rfl
  | cons c rest ih => simp [leadsWith, ih]

theorem containsSub_self (l : List Char) : containsSub l l = true := by
  cases l with
  | nil => rfl
  | cons c rest => simp [containsSub, leadsWith_refl]

theorem specCitationOk_trunc (t : String) : specCitationOk (pyTrunc t) t = true := by
  unfold specCitationOk pyTrunc
  by_cases h : t.length > 200
  · simp [h]
  · simp [h, containsSub_self]

theorem forall₂_map_self {α β : Type} (R : β → α → Prop) (f : α → β) :
    ∀ (l : List α), (∀ a ∈ l, R (f a) a) → List.Forall₂ R (l.map f) l := by
  intro l
  induction l with
  | nil => intro _; exact List.Forall₂.nil
  | cons a rest ih =>
    intro h
    exact List.Forall₂.cons (h a (List.mem_cons_self a rest))
      (ih fun x hx => h x (List.mem_cons_of_mem a hx))

theorem pySlice_natCast {α : Type} (l : List α) (k : ℕ) : pySlice l (k : ℤ) = l.take k := by
  unfold pySlice
  rw [if_pos (by exact_mod_cast Int.ofNat_nonneg k)]
  norm_num

theorem semantic_search_eval (st : Store) (enc1 : String → List ℚ) (cos : List ℚ → List ℚ → ℚ)
    (σ : EngineSt) (q : String) (M : List (List ℚ)) (k : ℤ)
    (hM : σ.embeddings = some M) (hne : ¬σ.chunks.length = 0)
    (hidx : ∀ i ∈ pySlice (argsortAsc (M.map (cos (enc1 q)))).reverse k, i < σ.chunks.length) :
    semantic_search st enc1 cos σ q k =
      .ok ((pySlice (argsortAsc (M.map (cos (enc1 q)))).reverse k).map
        fun i => (st (σ.chunks.getD i 0), (M.map (cos (enc1 q))).getD i 0)) := by
  have hred : semantic_search st enc1 cos σ q k =
      if σ.chunks.length = 0 then Except.error PyErr.valueError
      else (pySlice (argsortAsc (M.map (cos (enc1 q)))).reverse k).mapM
        fun i => (pyGet σ.chunks i).map fun cid => (st cid, (M.map (cos (enc1 q))).getD i 0) := by
    unfold semantic_search
    rw [hM]
  rw [hred, if_neg hne]
  exact mapM_pyGet_ok σ.chunks 0 (fun i cid => (st cid, (M.map (cos (enc1 q))).getD i 0)) _ hidx

/-! ## Claim theorems -/

/-- Claim C3 (confirmed): for every ranked-hit list the fallback's reported
amount is the maximum in-range currency value found across all ranked chunks'
texts (`none` exactly when no such value exists), and on the spec's example
chunks "claim amount is Rs. 15,000" / "penalty is Rs. 500" it is 15000.0. -/
theorem C3_fallback_amount :
    (∀ q hits, ((fallback_reasoning q hits).amount = none ↔ amountCandidates hits = []) ∧
      ∀ m : ℚ, ((fallback_reasoning q hits).amount = some m ↔
        m ∈ amountCandidates hits ∧ ∀ a ∈ amountCandidates hits, a ≤ m)) ∧
    (fallback_reasoning "46M knee surgery Pune" [(chunkAmt1, 1), (chunkAmt2, 1)]).amount
      = some 15000 := by
  constructor
  · intro q hits
    have hamt : (fallback_reasoning q hits).amount = pyMax (amountCandidates hits) := rfl
    rw [hamt]
    exact ⟨pyMax_none_iff _, fun m => pyMax_some_iff _ m⟩
  · decide

/-- Claim C4 (confirmed): the fallback's decision is "rejected" exactly when
some ranked chunk's lowercased text contains a member of the fixed
rejection-keyword set, and "approved" exactly otherwise; in particular the
decision depends only on that keyword predicate, not on any extracted amount. -/
theorem C4_fallback_rejection : ∀ q hits,
    ((fallback_reasoning q hits).decision = "rejected" ↔
      ∃ p ∈ hits, ∃ kw ∈ rejection_keywords, containsSub kw.data (lowerS p.1.text).data = true) ∧
    ((fallback_reasoning q hits).decision = "approved" ↔
      ¬∃ p ∈ hits, ∃ kw ∈ rejection_keywords, containsSub kw.data (lowerS p.1.text).data = true) := by
  intro q hits
  have hdec : (fallback_reasoning q hits).decision =
      if hits.any (fun p => containsRejection p.1.text) then "rejected" else "approved" := rfl
  have hany : hits.any (fun p => containsRejection p.1.text) = true ↔
      ∃ p ∈ hits, ∃ kw ∈ rejection_keywords, containsSub kw.data (lowerS p.1.text).data = true := by
    simp only [containsRejection, List.any_eq_true]
  cases hb : hits.any (fun p => containsRejection p.1.text) with
  | false =>
    rw [hdec, hb, if_neg (by simp)]
    constructor
    · constructor
      · intro habs
        exact absurd habs (by decide)
      · intro hex
        rw [hany.mpr hex] at hb
        exact absurd hb (by decide)
    · constructor
      · intro _ hex
        rw [hany.mpr hex] at hb
        exact absurd hb (by decide)
      · intro _
        rfl
  | true =>
    rw [hdec, hb, if_pos rfl]
    constructor
    · exact ⟨fun _ => hany.mp hb, fun _ => rfl⟩
    · constructor
      · intro habs
        exact absurd habs (by decide)
      · intro hnex
        exact absurd (hany.mp hb) hnex

/-- Claim C8, counterexample: a provider response in the exact expected JSON
shape is adopted verbatim, so its fabricated citation text — which is neither a
substring of the only retrieved chunk's text nor that text's 200-character
truncation — ends up in the returned result; the claimed invariant fails for
primary-strategy results. -/
theorem C8_counterexample :
    generate_response (some "key") (.json jsonFabricated) "q" [(chunkA, 1)] =
      { decision := .str "approved", amount := .null, justification := .str "ok",
        clause_mapping := .arr [.obj
          [("clause_text", .str "THIS EXACT SENTENCE APPEARS IN NO CHUNK"),
           ("source", .obj [("filename", .str "p.pdf"), ("page", .num 1),
                            ("section", .str "General")])]] } ∧
    specCitationOk "THIS EXACT SENTENCE APPEARS IN NO CHUNK" chunkA.text = false :=
  ⟨rfl, by decide⟩

/-- Claim C8, amended: the invariant does hold for every citation the fallback
strategy produces — the i-th citation's `clause_text` is admissible (exact
substring, or 200-character truncation plus ellipsis) for the i-th of the top-3
ranked hits it originates from. -/
theorem C8_fallback_citation_integrity : ∀ q hits,
    List.Forall₂ (fun cit (p : Chunk × ℚ) => specCitationOk cit.clause_text p.1.text = true)
      ((fallback_reasoning q hits).clause_mapping) (hits.take 3) := by
  intro q hits
  have hcm : (fallback_reasoning q hits).clause_mapping = (hits.take 3).map mkCitation := rfl
  rw [hcm]
  exact forall₂_map_self _ mkCitation (hits.take 3) fun p _ => specCitationOk_trunc p.1.text

/-- Claim C2, counterexample: a provider response that parses to a JSON object
with exactly the four expected keys but a wrongly-typed `decision` (the number
42) is NOT failed over to the fallback — the dataclass constructor accepts it
unchecked and the malformed result is returned as-is. -/
theorem C2_counterexample :
    generate_response (some "key") (.json jsonWrongTypes) "q" [(chunkB, 1)] =
      { decision := .num 42, amount := .null, justification := .str "x",
        clause_mapping := .arr [] } ∧
    (toJsonD (fallback_reasoning "q" [(chunkB, 1)])).decision = .str "approved" ∧
    Json.num 42 ≠ Json.str "approved" := by
  refine ⟨rfl, rfl, ?_⟩
  intro h
  exact Json.noConfusion h

/-- Claim C2, amended: `generate_response` is total (never raises, always
returns a result) and fails over to the deterministic fallback exactly on: no
API key, transport failure, unparseable response, or a parsed response that is
not a JSON object with exactly the four expected keys; a JSON object with
exactly those keys is adopted verbatim with no type validation. -/
theorem C2_generate_failover : ∀ (key : String) (pr : ProviderResult) (q : String)
    (hits : List (Chunk × ℚ)),
    generate_response none pr q hits = toJsonD (fallback_reasoning q hits) ∧
    generate_response (some key) .transportErr q hits = toJsonD (fallback_reasoning q hits) ∧
    generate_response (some key) .malformed q hits = toJsonD (fallback_reasoning q hits) ∧
    ∀ j : Json, generate_response (some key) (.json j) q hits =
      (kwargsMk j).getD (toJsonD (fallback_reasoning q hits)) := by
  intro key pr q hits
  refine ⟨rfl, rfl, rfl, ?_⟩
  intro j
  unfold generate_response
  cases h : kwargsMk j <;> simp [h]

/-- Claim C5, counterexample: calling the decision synthesizer itself with an
empty ranked-hit list is NOT a terminal rejected case — with no API key the
fallback strategy runs and returns decision "approved", not "rejected". -/
theorem C5_counterexample :
    (generate_response none .transportErr "any query" []).decision = Json.str "approved" ∧
    Json.str "approved" ≠ Json.str "rejected" := by
  refine ⟨rfl, ?_⟩
  intro h
  have := Json.str.inj h
  exact absurd this (by decide)

/-- Claim C5, amended: the empty-retrieval terminal case lives in the
orchestrator's `query`, before the synthesizer is invoked: whenever search
returns no hits, `query` returns the fixed rejected result (amount null, the
fixed justification, empty `clause_mapping`) for every provider configuration —
neither strategy runs. -/
theorem C5_empty_retrieval_orchestrator (enc1 : String → List ℚ)
    (cos : List ℚ → List ℚ → ℚ) (apiKey : Option String) (pr : ProviderResult)
    (st : Store) (σ : Orch) (q : String) (k : ℤ)
    (hinit : σ.inited = true)
    (hs : semantic_search st enc1 cos σ.engine q k = .ok []) :
    ragQuery enc1 cos apiKey pr st σ q k = .ok (toJsonD emptyRejectResult) := by
  unfold ragQuery
  rw [hinit]
  simp [hs]

/-- Witness for the amended C5 theorem: a Ready one-chunk orchestrator queried
with `top_k = 0` retrieves nothing and returns the fixed rejected result. -/
theorem C5_empty_retrieval_witness :
    orchSingle.inited = true ∧
    semantic_search storeABN encConst cosIndicator orchSingle.engine "q" 0 = .ok [] ∧
    ragQuery encConst cosIndicator (some "key") (.json jsonWrongTypes) storeABN orchSingle "q" 0 =
      .ok (toJsonD emptyRejectResult) :=
  ⟨rfl, rfl, C5_empty_retrieval_orchestrator encConst cosIndicator (some "key") (.json jsonWrongTypes)
    storeABN orchSingle "q" 0 rfl rfl⟩

/-- Claim C6 (code bug): with a Ready two-chunk corpus, a `process_document`
run whose chunking succeeds (one new chunk) but whose embedding call raises
leaves the engine's chunk list already replaced by the new chunks while the old
two-row embedding matrix is kept — the active corpus is NOT left unchanged —
and the subsequent `query` against the prior corpus raises `IndexError`
(argsort over the stale two-row matrix indexes past the one-element chunk list)
instead of succeeding. -/
theorem C6_embedding_failure_corrupts_corpus :
    process_document (some [2]) encFail storeABN orchReady = .error (storeABN, orchBroken) ∧
    orchBroken.engine.chunks ≠ orchReady.engine.chunks ∧
    ragQuery encConst cosIndicator none .transportErr storeABN orchBroken "q" 5 =
      .error .indexError := by
  refine ⟨rfl, by decide, rfl⟩

set_option maxRecDepth 1000000 in
/-- Claim C7, counterexample: the heading "SECTION ALPHA HEADING" of page 1 is
NOT carried forward to page 2 (which has no heading of its own) — page 2's
chunk gets the default label "General", contradicting the claimed carry-forward
rule. -/
theorem C7_counterexample :
    ((extract_text_from_pdf "f.pdf" [pageOne, pageTwo]).map fun c => (c.page_number, c.sect)) =
      [(1, "SECTION ALPHA HEADING"), (2, "General")] ∧
    ("General" : String) ≠ "SECTION ALPHA HEADING" :=
  ⟨rfl, by decide⟩

/-- Claim C7, amended: every chunk emitted from a page carries that page's own
section label — the LAST entirely-upper-case line of 6 to 99 characters on the
page, or the fixed default "General" when the page has none; headings apply to
all of the page's chunks (even those preceding the heading) and are never
carried to later pages. -/
theorem C7_section_tagging : ∀ (fname : String) (pages : List String),
    ((extract_text_from_pdf fname pages).all fun c =>
      c.sect == sectionOfPage (pages.getD (c.page_number - 1) "")) = true := by
  intro fname pages
  rw [List.all_eq_true]
  intro c hc
  have hc2 : c ∈ extractPages fname 1 pages := hc
  rcases extractPages_mem hc2 with ⟨i, hi, hp, hs⟩
  have hidx : c.page_number - 1 = i := by omega
  rw [beq_iff_eq, hidx, hs]

/-- Claim C10 (confirmed): `create_embeddings` retains the caller's chunk list
itself as the engine corpus, reassigns it BEFORE the batch encoder call runs
(observable in the failure outcome), and on success writes each computed vector
into the `embedding` field of the caller's own chunk objects in place, touching
no other object. -/
theorem C10_create_embeddings_mutation :
    ∀ (enc : List String → Option (List (List ℚ))) (st : Store) (σ : EngineSt) (arg : List ℕ),
      (enc (arg.map fun cid => (st cid).text) = none →
        create_embeddings enc st σ arg = .error (st, { σ with chunks := arg })) ∧
      (∀ embs, enc (arg.map fun cid => (st cid).text) = some embs →
        embs.length = arg.length → arg.Nodup →
        ∃ st2, create_embeddings enc st σ arg =
            .ok (st2, { chunks := arg, embeddings := some embs }) ∧
          (∀ i, i < arg.length →
            st2 (arg.getD i 0) = { st (arg.getD i 0) with embedding := some (embs.getD i []) }) ∧
          (∀ x, x ∉ arg → st2 x = st x)) := by
  intro enc st σ arg
  constructor
  · intro h
    unfold create_embeddings
    rw [h]
  · intro embs h hlen hnd
    rcases writeLoop_spec arg embs st hlen hnd with ⟨st2, hrun, hwr, hfr⟩
    refine ⟨st2, ?_, hwr, hfr⟩
    have hred : create_embeddings enc st σ arg =
        match writeLoop st arg embs with
        | .error st3 => .error (st3, { chunks := arg, embeddings := some embs })
        | .ok st3 => .ok (st3, { chunks := arg, embeddings := some embs }) := by
      unfold create_embeddings
      rw [h]
    rw [hred, hrun]

/-- Witness for the C10 theorem: a successful two-chunk embedding run through
`encBatch`, discharging the encoder-outcome, length and distinctness
hypotheses at a concrete input. -/
theorem C10_create_embeddings_witness :
    encBatch ([0, 1].map fun cid => (storeABN cid).text) = some [[1, 0], [1, 0]] ∧
    ([[1, 0], [1, 0]] : List (List ℚ)).length = [0, 1].length ∧
    ([0, 1] : List ℕ).Nodup ∧
    ∃ st2, create_embeddings encBatch storeABN engSingle [0, 1] =
        .ok (st2, { chunks := [0, 1], embeddings := some [[1, 0], [1, 0]] }) ∧
      (∀ i, i < ([0, 1] : List ℕ).length →
        st2 (([0, 1] : List ℕ).getD i 0) =
          { storeABN (([0, 1] : List ℕ).getD i 0) with
              embedding := some (([[1, 0], [1, 0]] : List (List ℚ)).getD i []) }) ∧
      (∀ x, x ∉ ([0, 1] : List ℕ) → st2 x = storeABN x) :=
  ⟨rfl, rfl, by decide,
    (C10_create_embeddings_mutation encBatch storeABN engSingle [0, 1]).2
      [[1, 0], [1, 0]] rfl rfl (by decide)⟩

/-- Claim C1, counterexample: two chunks with EQUAL scores come back with the
LATER insertion position first — numpy insertion-sorts a row this small, so its
argsort is stable here and the `[::-1]` reversal flips the tie order —
contradicting the claimed earlier-first tie rule. -/
theorem C1_counterexample :
    semantic_search storeABN encConst cosIndicator engTies "q" 2 =
      .ok [(chunkB, 1), (chunkA, 1)] ∧ chunkB ≠ chunkA :=
  ⟨rfl, by decide⟩

/-- Claim C1, amended: for every built index and k > 0, `search` succeeds and
returns min(k, n) distinct hits — `sel` lists their original insertion
positions in order — sorted in weakly descending score order, with no
unselected chunk scoring higher than any returned hit (the k highest-scoring
chunks; all of them when the corpus has fewer than k).  Those conclusions
constrain only scores and selection, so they are invariant under the argsort's
tie order and hold for every corpus size.  The spec's earlier-first tie rule is
replaced by the final, conditional clause: on corpora of at most 16 chunks —
numpy's insertion-sort regime, where `argsortAsc` is `np.argsort` exactly and
in particular on the spec's own 5-chunk example — the `[::-1]` reversal puts
the LATER insertion position first on equal scores; on larger corpora numpy's
unstable quicksort leaves the tie order unspecified and no tie order is
asserted. -/
theorem C1_search_ranking (st : Store) (enc1 : String → List ℚ)
    (cos : List ℚ → List ℚ → ℚ) (σ : EngineSt) (q : String) (M : List (List ℚ)) (k : ℕ)
    (hM : σ.embeddings = some M) (hlen : σ.chunks.length = M.length)
    (hne : σ.chunks.length ≠ 0) (hk : 0 < k) :
    ∃ sel : List ℕ,
      semantic_search st enc1 cos σ q (k : ℤ) =
        .ok (sel.map fun i => (st (σ.chunks.getD i 0), (M.map (cos (enc1 q))).getD i 0)) ∧
      sel.length = min k σ.chunks.length ∧
      sel.Nodup ∧
      (∀ i ∈ sel, i < σ.chunks.length) ∧
      sel.Pairwise (fun i j =>
        (M.map (cos (enc1 q))).getD j 0 ≤ (M.map (cos (enc1 q))).getD i 0) ∧
      (∀ i ∈ sel, ∀ j, j < σ.chunks.length → j ∉ sel →
        (M.map (cos (enc1 q))).getD j 0 ≤ (M.map (cos (enc1 q))).getD i 0) ∧
      (σ.chunks.length ≤ 16 →
        sel.Pairwise (fun i j =>
          (M.map (cos (enc1 q))).getD j 0 < (M.map (cos (enc1 q))).getD i 0 ∨
            ((M.map (cos (enc1 q))).getD i 0 = (M.map (cos (enc1 q))).getD j 0 ∧ j < i))) := by
  have hsl : (M.map (cos (enc1 q))).length = σ.chunks.length := by
    rw [List.length_map, hlen]
  obtain ⟨hnd, hmem, hpw, htop⟩ := argsort_take_topk (M.map (cos (enc1 q))) k
  have hmemSel : ∀ i ∈ (argsortAsc (M.map (cos (enc1 q)))).reverse.take k,
      i < σ.chunks.length := fun i hi => hsl ▸ hmem i hi
  have hslice : pySlice (argsortAsc (M.map (cos (enc1 q)))).reverse (k : ℤ) =
      (argsortAsc (M.map (cos (enc1 q)))).reverse.take k := pySlice_natCast _ k
  have hsearch := semantic_search_eval st enc1 cos σ q M (k : ℤ) hM hne
    (by rw [hslice]; exact hmemSel)
  rw [hslice] at hsearch
  refine ⟨(argsortAsc (M.map (cos (enc1 q)))).reverse.take k, hsearch, ?_, hnd, hmemSel,
    ?_, ?_, ?_⟩
  · rw [List.length_take, List.length_reverse, argsort_length, hsl]
  · refine hpw.imp ?_
    intro i j h
    rcases h with h | ⟨he, _⟩
    · exact le_of_lt h
    · exact le_of_eq he
  · intro i hi j hj hjsel
    exact htop i hi j (by rw [hsl]; exact hj) hjsel
  · intro _
    refine hpw.imp ?_
    intro i j h
    rcases h with h | ⟨he, hj2⟩
    · exact Or.inl h
    · exact Or.inr ⟨he.symm, hj2⟩

/-- Witness for the amended C1 theorem: the three-chunk corpus whose first and
third chunks tie at score 1, searched with k = 2, discharging the built-index
and k > 0 hypotheses at a concrete input (and lying inside the 16-chunk regime
of the tie clause). -/
theorem C1_search_ranking_witness :
    engThree.embeddings = some [[1, 0], [0, 1], [1, 0]] ∧
    engThree.chunks.length = ([[1, 0], [0, 1], [1, 0]] : List (List ℚ)).length ∧
    engThree.chunks.length ≠ 0 ∧
    0 < 2 ∧
    ∃ sel : List ℕ,
      semantic_search storeABN encConst cosIndicator engThree "q" ((2 : ℕ) : ℤ) =
        .ok (sel.map fun i => (storeABN (engThree.chunks.getD i 0),
          (([[1, 0], [0, 1], [1, 0]] : List (List ℚ)).map
            (cosIndicator (encConst "q"))).getD i 0)) ∧
      sel.length = min 2 engThree.chunks.length ∧
      sel.Nodup ∧
      (∀ i ∈ sel, i < engThree.chunks.length) ∧
      sel.Pairwise (fun i j =>
        (([[1, 0], [0, 1], [1, 0]] : List (List ℚ)).map
            (cosIndicator (encConst "q"))).getD j 0 ≤
          (([[1, 0], [0, 1], [1, 0]] : List (List ℚ)).map
            (cosIndicator (encConst "q"))).getD i 0) ∧
      (∀ i ∈ sel, ∀ j, j < engThree.chunks.length → j ∉ sel →
        (([[1, 0], [0, 1], [1, 0]] : List (List ℚ)).map
            (cosIndicator (encConst "q"))).getD j 0 ≤
          (([[1, 0], [0, 1], [1, 0]] : List (List ℚ)).map
            (cosIndicator (encConst "q"))).getD i 0) ∧
      (engThree.chunks.length ≤ 16 →
        sel.Pairwise (fun i j =>
          (([[1, 0], [0, 1], [1, 0]] : List (List ℚ)).map
              (cosIndicator (encConst "q"))).getD j 0 <
            (([[1, 0], [0, 1], [1, 0]] : List (List ℚ)).map
              (cosIndicator (encConst "q"))).getD i 0 ∨
            ((([[1, 0], [0, 1], [1, 0]] : List (List ℚ)).map
                (cosIndicator (encConst "q"))).getD i 0 =
              (([[1, 0], [0, 1], [1, 0]] : List (List ℚ)).map
                (cosIndicator (encConst "q"))).getD j 0 ∧ j < i))) :=
  ⟨rfl, rfl, by decide, by decide,
    C1_search_ranking storeABN encConst cosIndicator engThree "q"
      [[1, 0], [0, 1], [1, 0]] 2 rfl rfl (by decide) (by decide)⟩

/-- Claim C9, counterexample: `search` called with k = 0 on a built index does
NOT fail with any error — there is no `InvalidK` check in the code — it simply
returns the empty hit list. -/
theorem C9_counterexample :
    semantic_search storeABN encConst cosIndicator engTies "q" 0 = .ok [] := rfl

/-- Claim C9, amended: on a built index, `search` with k ≤ 0 never fails: k = 0
returns no hits (Python `[:0]`), and k < 0 returns the top n + k hits — `sel`
lists their original insertion positions — distinct, sorted in weakly
descending score order, with every dropped chunk scoring no higher than any
returned hit (Python negative slicing drops the |k| lowest-scoring hits). -/
theorem C9_search_nonpositive_k (st : Store) (enc1 : String → List ℚ)
    (cos : List ℚ → List ℚ → ℚ) (σ : EngineSt) (q : String) (M : List (List ℚ)) (k : ℤ)
    (hM : σ.embeddings = some M) (hlen : σ.chunks.length = M.length)
    (hne : σ.chunks.length ≠ 0) (hk : k ≤ 0) :
    ∃ sel : List ℕ,
      semantic_search st enc1 cos σ q k =
        .ok (sel.map fun i => (st (σ.chunks.getD i 0), (M.map (cos (enc1 q))).getD i 0)) ∧
      sel.length = (if k = 0 then 0 else ((σ.chunks.length : ℤ) + k).toNat) ∧
      sel.Nodup ∧
      (∀ i ∈ sel, i < σ.chunks.length) ∧
      sel.Pairwise (fun i j =>
        (M.map (cos (enc1 q))).getD j 0 ≤ (M.map (cos (enc1 q))).getD i 0) ∧
      ∀ i ∈ sel, ∀ j, j < σ.chunks.length → j ∉ sel →
        (M.map (cos (enc1 q))).getD j 0 ≤ (M.map (cos (enc1 q))).getD i 0 := by
  have hsl : (M.map (cos (enc1 q))).length = σ.chunks.length := by
    rw [List.length_map, hlen]
  have hAlen : (argsortAsc (M.map (cos (enc1 q)))).reverse.length = σ.chunks.length := by
    rw [List.length_reverse, argsort_length, hsl]
  by_cases hk0 : k = 0
  · subst hk0
    have hslice : pySlice (argsortAsc (M.map (cos (enc1 q)))).reverse (0 : ℤ) = [] := by
      unfold pySlice
      simp
    have hsearch := semantic_search_eval st enc1 cos σ q M 0 hM hne
      (by rw [hslice]; intro i hi; simp at hi)
    rw [hslice] at hsearch
    refine ⟨[], hsearch, by simp, List.nodup_nil, ?_, List.Pairwise.nil, ?_⟩
    · intro i hi
      simp at hi
    · intro i hi
      simp at hi
  · have hklt : k < 0 := lt_of_le_of_ne hk hk0
    obtain ⟨hnd, hmem, hpw, htop⟩ := argsort_take_topk (M.map (cos (enc1 q)))
      ((((argsortAsc (M.map (cos (enc1 q)))).reverse.length : ℤ) + k).toNat)
    have hmemSel : ∀ i ∈ (argsortAsc (M.map (cos (enc1 q)))).reverse.take
        ((((argsortAsc (M.map (cos (enc1 q)))).reverse.length : ℤ) + k).toNat),
        i < σ.chunks.length := fun i hi => hsl ▸ hmem i hi
    have hslice : pySlice (argsortAsc (M.map (cos (enc1 q)))).reverse k =
        (argsortAsc (M.map (cos (enc1 q)))).reverse.take
          ((((argsortAsc (M.map (cos (enc1 q)))).reverse.length : ℤ) + k).toNat) := by
      unfold pySlice
      rw [if_neg (not_le.mpr hklt)]
    have hsearch := semantic_search_eval st enc1 cos σ q M k hM hne
      (by rw [hslice]; exact hmemSel)
    rw [hslice] at hsearch
    refine ⟨_, hsearch, ?_, hnd, hmemSel, ?_, ?_⟩
    · rw [if_neg hk0, List.length_take, hAlen]
      omega
    · refine hpw.imp ?_
      intro i j h
      rcases h with h | ⟨he, _⟩
      · exact le_of_lt h
      · exact le_of_eq he
    · intro i hi j hj hjsel
      exact htop i hi j (by rw [hsl]; exact hj) hjsel

/-- Witness for the amended C9 theorem: searching the built two-chunk tie
corpus with k = 0 succeeds with zero hits, discharging the built-index and
k ≤ 0 hypotheses at a concrete input. -/
theorem C9_search_nonpositive_k_witness :
    engTies.embeddings = some [[1, 0], [1, 0]] ∧
    engTies.chunks.length = ([[1, 0], [1, 0]] : List (List ℚ)).length ∧
    engTies.chunks.length ≠ 0 ∧
    (0 : ℤ) ≤ 0 ∧
    ∃ sel : List ℕ,
      semantic_search storeABN encConst cosIndicator engTies "q" 0 =
        .ok (sel.map fun i => (storeABN (engTies.chunks.getD i 0),
          (([[1, 0], [1, 0]] : List (List ℚ)).map
            (cosIndicator (encConst "q"))).getD i 0)) ∧
      sel.length = (if (0 : ℤ) = 0 then 0 else ((engTies.chunks.length : ℤ) + 0).toNat) ∧
      sel.Nodup ∧
      (∀ i ∈ sel, i < engTies.chunks.length) ∧
      sel.Pairwise (fun i j =>
        (([[1, 0], [1, 0]] : List (List ℚ)).map
            (cosIndicator (encConst "q"))).getD j 0 ≤
          (([[1, 0], [1, 0]] : List (List ℚ)).map
            (cosIndicator (encConst "q"))).getD i 0) ∧
      ∀ i ∈ sel, ∀ j, j < engTies.chunks.length → j ∉ sel →
        (([[1, 0], [1, 0]] : List (List ℚ)).map
            (cosIndicator (encConst "q"))).getD j 0 ≤
          (([[1, 0], [1, 0]] : List (List ℚ)).map
            (cosIndicator (encConst "q"))).getD i 0 :=
  ⟨rfl, rfl, by decide, by decide,
    C9_search_nonpositive_k storeABN encConst cosIndicator engTies "q"
      [[1, 0], [1, 0]] 0 rfl rfl (by decide) (by decide)⟩
